import Mathlib

/-!
Verification of the FedEx invoice field-recovery engine
(`parse_fedex_invoice.py` and the by-reference lookups of `app.py`).

The Python source is shallowly embedded over `List Char`.  Python `re`
patterns used by the engine are hand-compiled to deterministic scanners
that reproduce the leftmost, greedy/lazy backtracking semantics of the
specific patterns in the source (analysed pattern by pattern).  All
definitions are executable, so concrete documents can be evaluated by
`decide`.
-/

namespace Fedex

abbrev Chars := List Char

/-- Characters of a string literal. -/
def strL (s : String) : Chars := s.data

/-- Python `\s` for the ASCII range (space, tab, newline, CR, FF, VT). -/
def isWsB (c : Char) : Bool :=
  c == ' ' || c == '\t' || c == '\n' || c == '\r' || c == '\x0c' || c == '\x0b'

/-- Python `\d` (ASCII digits suffice for the invoice texts). -/
def isDigitB (c : Char) : Bool := c.isDigit

/-- Character class `[\d,]` appearing in the amount patterns. -/
def isNumChar (c : Char) : Bool := c.isDigit || c == ','

/-- ASCII lower-casing, as `str.lower` acts on the engine's inputs. -/
def toLowerL (cs : Chars) : Chars := cs.map Char.toLower

/-- Python slice `cs[a:b]`. -/
def segSlice (cs : Chars) (a b : Nat) : Chars := (cs.drop a).take (b - a)

/-- Python `str.splitlines` for newline-separated text: splits on a
terminating or separating `\n` and drops a trailing empty line. -/
def splitlines : Chars → List Chars
  | [] => []
  | '\n' :: rest => [] :: splitlines rest
  | c :: rest =>
    match splitlines rest with
    | [] => [[c]]
    | l :: ls => (c :: l) :: ls

/-- Python `str.strip()` (ASCII whitespace). -/
def stripWs (cs : Chars) : Chars :=
  ((cs.dropWhile isWsB).reverse.dropWhile isWsB).reverse

/-- Python `hay.find(needle, start)`: least index `i ≥ start` at which
`needle` occurs, `none` when there is no occurrence. -/
def findSubFrom (hay needle : Chars) (start : Nat) : Option Nat :=
  (List.range (hay.length + 1)).find?
    (fun i => Nat.ble start i && needle.isPrefixOf (hay.drop i))

/-- Python `needle in hay`. -/
def hasSub (hay needle : Chars) : Bool := (findSubFrom hay needle 0).isSome

/-- First `some` value of `f` along a list (the order of attempts matters:
it realizes the priority order of backtracking choices). -/
def firstSome {α β : Type} (f : α → Option β) : List α → Option β
  | [] => none
  | a :: l =>
    match f a with
    | some b => some b
    | none => firstSome f l

/-- Index of the first list entry satisfying `p` (Python `enumerate` search). -/
def firstIdxWhere {α : Type} (p : α → Bool) : List α → Option Nat
  | [] => none
  | a :: l => if p a then some 0 else (firstIdxWhere p l).map (· + 1)

/-- Minimum of a list of naturals, `none` on the empty list (Python `min`). -/
def minList : List Nat → Option Nat
  | [] => none
  | x :: xs => some (xs.foldl (fun a b => if a ≤ b then a else b) x)

/-! ## Numeric token patterns

`NUM_RE = -?[\d,]+\.\d+` (fraction required) and
`NUM_PATTERN = -?[\d,]+(?:\.\d+)?` (fraction optional).  Matching either
pattern at a fixed position is deterministic: the greedy `[\d,]+` run is
followed by a literal dot, so shortening the run can never produce the
dot, and backtracking is vacuous.  Each matcher returns the matched token
together with the remaining suffix of the input. -/

/-- `[\d,]+\.\d+` anchored at the start of `cs`. -/
def numCoreRe (cs : Chars) : Option (Chars × Chars) :=
  let r1 := cs.takeWhile isNumChar
  let rest1 := cs.dropWhile isNumChar
  if r1.isEmpty then none else
  match rest1 with
  | '.' :: rest2 =>
    let r2 := rest2.takeWhile isDigitB
    if r2.isEmpty then none
    else some (r1 ++ '.' :: r2, rest2.dropWhile isDigitB)
  | _ => none

/-- `-?[\d,]+\.\d+` (`NUM_RE`) anchored at the start of `cs`. -/
def numReMatchAt (cs : Chars) : Option (Chars × Chars) :=
  match cs with
  | '-' :: rest => (numCoreRe rest).map (fun p => ('-' :: p.1, p.2))
  | _ => numCoreRe cs

/-- `[\d,]+(?:\.\d+)?` anchored at the start of `cs`. -/
def numCorePat (cs : Chars) : Option (Chars × Chars) :=
  let r1 := cs.takeWhile isNumChar
  let rest1 := cs.dropWhile isNumChar
  if r1.isEmpty then none else
  match rest1 with
  | '.' :: rest2 =>
    let r2 := rest2.takeWhile isDigitB
    if r2.isEmpty then some (r1, rest1)
    else some (r1 ++ '.' :: r2, rest2.dropWhile isDigitB)
  | _ => some (r1, rest1)

/-- `-?[\d,]+(?:\.\d+)?` (`NUM_PATTERN`) anchored at the start of `cs`. -/
def numPatMatchAt (cs : Chars) : Option (Chars × Chars) :=
  match cs with
  | '-' :: rest => (numCorePat rest).map (fun p => ('-' :: p.1, p.2))
  | _ => numCorePat cs

/-- `NUM_RE.finditer`: leftmost non-overlapping matches with their start
offsets, scanning left to right and resuming after each match, exactly as
Python `re.finditer`.  The fuel argument is the length of the scanned
suffix; every step consumes at least one character, so the fuel never
runs out on the actual call sites. -/
def numIterAux : Nat → Chars → Nat → List (Nat × Chars)
  | 0, _, _ => []
  | _ + 1, [], _ => []
  | fuel + 1, c :: rest, pos =>
    match numReMatchAt (c :: rest) with
    | some (tok, rem) => (pos, tok) :: numIterAux fuel rem (pos + tok.length)
    | none => numIterAux fuel rest (pos + 1)

/-- All `NUM_RE` matches of `cs` with their start offsets. -/
def numFindIterPos (cs : Chars) : List (Nat × Chars) := numIterAux cs.length cs 0

/-! ## Numeric token scanner (exclusion filtering)

`_numbers_in_segment` and the candidate loops of
`_find_amount_near_label` / `_find_amount_for_label` all reject a token
when the 3 characters before or after it contain `%` or (case
insensitively) `kg`. -/

/-- The 3-characters-each-side exclusion context check applied to the
token starting at offset `s` in `seg`. -/
def cleanWindow (seg : Chars) (s : Nat) (tok : Chars) : Bool :=
  let head := segSlice seg (s - 3) s
  let tail := (seg.drop (s + tok.length)).take 3
  !(head.contains '%') && !(tail.contains '%') &&
    !(hasSub (toLowerL head) (strL "kg")) && !(hasSub (toLowerL tail) (strL "kg"))

/-- `_numbers_in_segment`, keeping token start offsets. -/
def numbers_in_segment_pos (seg : Chars) : List (Nat × Chars) :=
  (numFindIterPos seg).filter (fun p => cleanWindow seg p.1 p.2)

/-- `_numbers_in_segment` from the source: the candidate tokens of a
segment after exclusion filtering. -/
def numbers_in_segment (seg : Chars) : List Chars :=
  (numbers_in_segment_pos seg).map (fun p => p.2)

/-! ## Decimal values and the largest-absolute-value tie-break -/

def digitsToNat (ds : Chars) : Nat :=
  ds.foldl (fun a c => a * 10 + (c.toNat - 48)) 0

/-- `Decimal(s.replace(',', ''))` in exact scaled-integer form: the pair
`(n, k)` denotes the rational `n / 10 ^ k`. -/
def decScaled (tok : Chars) : Int × Nat :=
  let t := tok.filter (fun c => !(c == ','))
  let neg := t.head? == some '-'
  let t2 := if neg then t.drop 1 else t
  let ip := t2.takeWhile (fun c => !(c == '.'))
  let fp := (t2.dropWhile (fun c => !(c == '.'))).drop 1
  let m : Int := (digitsToNat ip * 10 ^ fp.length + digitsToNat fp : Nat)
  (if neg then -m else m, fp.length)

/-- The rational value a token denotes (`Decimal` compares exactly). -/
def decVal (tok : Chars) : ℚ :=
  ((decScaled tok).1 : ℚ) / (10 : ℚ) ^ (decScaled tok).2

/-- Comparison `abs (n₁ / 10 ^ k₁) < abs (n₂ / 10 ^ k₂)` by
cross-multiplication, executable on naturals. -/
def absLtB (a b : Int × Nat) : Bool :=
  a.1.natAbs * 10 ^ b.2 < b.1.natAbs * 10 ^ a.2

/-- Python `max(candidates, key=lambda s: abs(to_decimal(s)))`: the first
candidate of largest absolute value. -/
def maxAbsFirst (x : Chars) (xs : List Chars) : Chars :=
  xs.foldl (fun b c => if absLtB (decScaled b) (decScaled c) then c else b) x

/-! ## Label-anchored candidate finders -/

/-- Lines of the window of `_find_amount_near_label`: the label's own
line, then the `window` following lines, then the `window` preceding
lines, in the order the source appends candidates. -/
def nearLabelCandidatesAt (lines : List Chars) (idx window : Nat) : List Chars :=
  numbers_in_segment (lines.getD idx []) ++
    ((List.range window).flatMap fun j =>
      if idx + j + 1 < lines.length then numbers_in_segment (lines.getD (idx + j + 1) []) else []) ++
    ((List.range window).flatMap fun j =>
      if j + 1 ≤ idx then numbers_in_segment (lines.getD (idx - (j + 1)) []) else [])

/-- Candidate set of `_find_amount_near_label`: `none` when no line
contains the label. -/
def nearLabelCandidates (block_text label : Chars) (window : Nat) : Option (List Chars) :=
  let lines := splitlines block_text
  match firstIdxWhere (fun line => hasSub (toLowerL line) (toLowerL label)) lines with
  | none => none
  | some idx => some (nearLabelCandidatesAt lines idx window)

/-- `_find_amount_near_label` from the source: all filtered tokens within
±`window` lines of the first label line; the candidate with the largest
absolute value wins. -/
def find_amount_near_label (block_text label : Chars) (window : Nat) : Option Chars :=
  match nearLabelCandidates block_text label window with
  | none => none
  | some [] => none
  | some (x :: xs) => some (maxAbsFirst x xs)

/-- `_line_starts_with_number` from the source: `re.match(r"\s*(NUM_RE)", line)`,
rejecting the token when `%` occurs in the 3 characters after the match.
(The source checks only `%` and only after the token here.) -/
def line_starts_with_number (line : Chars) : Option Chars :=
  match numReMatchAt (line.dropWhile isWsB) with
  | none => none
  | some (tok, rem) => if (rem.take 3).contains '%' then none else some tok

/-- `_find_amount_for_label` from the source: on the first line containing
the label, the filtered numeric token closest before the label; otherwise
the nearest previous line (up to `window` above) starting with a number;
otherwise the nearest following line (up to `window` below) starting with
a number. -/
def find_amount_for_label (block_text label : Chars) (window : Nat) : Option Chars :=
  let lines := splitlines block_text
  let ll := toLowerL label
  match firstIdxWhere (fun line => hasSub (toLowerL line) ll) lines with
  | none => none
  | some idx =>
    let line := lines.getD idx []
    let labelPos := (findSubFrom (toLowerL line) ll 0).getD 0
    let cands := (numFindIterPos line).filter
      (fun p => decide (p.1 < labelPos) && cleanWindow line p.1 p.2)
    match cands.getLast? with
    | some p => some p.2
    | none =>
      match firstSome (fun j => if j + 1 ≤ idx then line_starts_with_number (lines.getD (idx - (j + 1)) []) else none)
          (List.range window) with
      | some tok => some tok
      | none =>
        firstSome (fun j => if idx + j + 1 < lines.length then line_starts_with_number (lines.getD (idx + j + 1) []) else none)
          (List.range window)

/-- `_amount_from_label_line` from the source: on the first line containing
the label, the last filtered token strictly before the label's position,
else the first filtered token after the label, else `none`. -/
def amount_from_label_line (charges_text label : Chars) : Option Chars :=
  let ll := toLowerL label
  match List.find? (fun line => hasSub (toLowerL line) ll) (splitlines charges_text) with
  | none => none
  | some line =>
    let pos := (findSubFrom (toLowerL line) ll 0).getD 0
    match (numbers_in_segment (line.take pos)).getLast? with
    | some t => some t
    | none => (numbers_in_segment (line.drop (pos + label.length))).head?

/-! ## The single-line pattern rules

`TRANSPORT_AFTER_RE = Transportation\s+Charge[^\d\n]*(NUM_PATTERN)` (with
`re.I`), and the analogous `DISCOUNT_*` / `FUEL_*` patterns.  A label is a
list of lowercase words joined by `\s+`. -/

/-- Case-insensitive match of one literal word at the start of `cs`. -/
def lowerPrefix (w cs : Chars) : Bool := toLowerL (cs.take w.length) == w

/-- Match `word₁\s+word₂\s+…` at the start of `cs` (case-insensitive),
returning the suffix after the label.  The greedy `\s+` is deterministic
here because a shorter whitespace run would leave a whitespace character
where the next literal word must start. -/
def labelWordsMatch : List Chars → Chars → Option Chars
  | [], cs => some cs
  | w :: ws, cs =>
    if lowerPrefix w cs then
      match ws with
      | [] => some (cs.drop w.length)
      | _ :: _ =>
        let after := cs.drop w.length
        if (after.takeWhile isWsB).isEmpty then none
        else labelWordsMatch ws (after.dropWhile isWsB)
    else none

/-- The `[^\d\n]*(NUM_PATTERN)` tail of the AFTER patterns.  The greedy
run is tried longest first; on failure the engine backtracks to shorter
runs, which can only succeed on a `-`/`,` character inside the run. -/
def afterNumPart (cs : Chars) : Option Chars :=
  let n := (cs.takeWhile (fun c => !c.isDigit && !(c == '\n'))).length
  firstSome (fun k => (numPatMatchAt (cs.drop (n - k))).map (fun p => p.1))
    (List.range (n + 1))

/-- `re.search` for an AFTER pattern: scan start positions left to right;
at each label occurrence try the amount tail, else continue scanning. -/
def searchAfterAux (words : List Chars) : Chars → Option Chars
  | [] => none
  | c :: rest =>
    match labelWordsMatch words (c :: rest) with
    | some after =>
      match afterNumPart after with
      | some tok => some tok
      | none => searchAfterAux words rest
    | none => searchAfterAux words rest

/-- `TRANSPORT_AFTER_RE.search(text)`-style search, returning group 1. -/
def searchAfterRe (words : List Chars) (text : Chars) : Option Chars :=
  searchAfterAux words text

/-- Whether the label starts somewhere in the same line as the current
position (the `[^\n]*label` tail of the BEFORE patterns). -/
def labelOnLineAfter (words : List Chars) (rem : Chars) : Bool :=
  let m := (rem.takeWhile (fun c => !(c == '\n'))).length
  (List.range (m + 1)).any (fun k => (labelWordsMatch words (rem.drop k)).isSome)

/-- `re.search` for a BEFORE pattern `(NUM_PATTERN)[^\n]*label`: the
leftmost numeric token followed, on the same line, by the label.  The
captured group is the greedy token; backtracking inside the token cannot
create a label occurrence, so success is equivalent to a label start
after the greedy match on the same line. -/
def searchBeforeAux (words : List Chars) : Chars → Option Chars
  | [] => none
  | c :: rest =>
    match numPatMatchAt (c :: rest) with
    | some (tok, rem) =>
      if labelOnLineAfter words rem then some tok
      else searchBeforeAux words rest
    | none => searchBeforeAux words rest

/-- `TRANSPORT_BEFORE_RE.search(text)`-style search, returning group 1. -/
def searchBeforeRe (words : List Chars) (text : Chars) : Option Chars :=
  searchBeforeAux words text

/-! ## Charges-section isolation (`_slice_charges_section`) -/

/-- End-marker candidate positions: each of `signed`, `tendered date`,
`subtotal inr` searched in the lower-cased block from `s + 7` (just past
the word `charges`). -/
def chargeEndCands (low : Chars) (s : Nat) : List Nat :=
  [strL "signed", strL "tendered date", strL "subtotal inr"].filterMap
    (fun t => findSubFrom low t (s + 7))

/-- `_slice_charges_section` from the source. -/
def slice_charges_section (block_text : Chars) : Chars :=
  let low := toLowerL block_text
  match findSubFrom low (strL "charges") 0 with
  | none => block_text
  | some s =>
    match minList (chargeEndCands low s) with
    | some e => if s < e then segSlice block_text s e else block_text.drop s
    | none => block_text.drop s

/-! ## The header pattern (`HEADER_RE`)

    ^(?P<shipment>\d+)\s+(?P<ship_date>\d{2}/\d{2}/\d{4})\s+
    (?P<service>.+?)\s+(?P<pieces>\d+)\s+(?P<weight>\d+(?:\.\d+)?\s*kg)\s+
    (?P<reference>\S+)\s+(?P<freight>[\d,]+\.\d+)\s+
    (?P<other_charges>[\d,]+\.\d+)\s+(?P<total>[\d,]+\.\d+)     (re.M)

All quantifiers except the whitespace before the service and the lazy
service itself are deterministic, because each greedy run is followed by
a character class disjoint from the run.  The two remaining choice points
are realized as explicit backtracking loops in their priority order:
longest whitespace run first, then shortest service. -/

structure Header where
  shipment : Chars
  ship_date : Chars
  service : Chars
  pieces : Chars
  weight : Chars
  reference : Chars
  freight : Chars
  other_charges : Chars
  total : Chars
deriving DecidableEq

/-- `\s+`: skip a non-empty maximal whitespace run. -/
def wsSkip1 (cs : Chars) : Option Chars :=
  if (cs.takeWhile isWsB).isEmpty then none else some (cs.dropWhile isWsB)

/-- `\d+`: a non-empty maximal digit run and the remaining suffix. -/
def digitTok (cs : Chars) : Option (Chars × Chars) :=
  let d := cs.takeWhile isDigitB
  if d.isEmpty then none else some (d, cs.dropWhile isDigitB)

/-- `\S+`: a non-empty maximal non-whitespace run and the remainder. -/
def nonWsTok (cs : Chars) : Option (Chars × Chars) :=
  let d := cs.takeWhile (fun c => !isWsB c)
  if d.isEmpty then none else some (d, cs.dropWhile (fun c => !isWsB c))

/-- Exactly `n` digits. -/
def exactDigits (n : Nat) (cs : Chars) : Option (Chars × Chars) :=
  let d := cs.take n
  if d.length == n && d.all isDigitB then some (d, cs.drop n) else none

/-- `\d{2}/\d{2}/\d{4}`. -/
def dateMatch (cs : Chars) : Option (Chars × Chars) :=
  match exactDigits 2 cs with
  | none => none
  | some (d1, r1) =>
    match r1 with
    | '/' :: r2 =>
      match exactDigits 2 r2 with
      | none => none
      | some (d2, r3) =>
        match r3 with
        | '/' :: r4 =>
          match exactDigits 4 r4 with
          | none => none
          | some (d3, r5) => some (d1 ++ '/' :: d2 ++ '/' :: d3, r5)
        | _ => none
    | _ => none

/-- `\d+(?:\.\d+)?\s*kg`: try the optional fraction greedily first; the
whitespace before the literal `kg` is deterministic. -/
def weightMatch (cs : Chars) : Option (Chars × Chars) :=
  let d1 := cs.takeWhile isDigitB
  if d1.isEmpty then none else
  let r1 := cs.dropWhile isDigitB
  let withFrac : Option (Chars × Chars) :=
    match r1 with
    | '.' :: r2 =>
      let d2 := r2.takeWhile isDigitB
      if d2.isEmpty then none else
      let r3 := r2.dropWhile isDigitB
      let w := r3.takeWhile isWsB
      let r4 := r3.dropWhile isWsB
      if (strL "kg").isPrefixOf r4 then
        some (d1 ++ '.' :: d2 ++ w ++ strL "kg", r4.drop 2)
      else none
    | _ => none
  match withFrac with
  | some x => some x
  | none =>
    let w := r1.takeWhile isWsB
    let r2 := r1.dropWhile isWsB
    if (strL "kg").isPrefixOf r2 then some (d1 ++ w ++ strL "kg", r2.drop 2)
    else none

/-- The groups of `HEADER_RE` after the service group. -/
structure AfterGroups where
  pieces : Chars
  weight : Chars
  reference : Chars
  freight : Chars
  other_charges : Chars
  total : Chars
deriving DecidableEq

/-- The deterministic tail of `HEADER_RE` after the service group:
`\s+(\d+)\s+(weight)\s+(\S+)\s+(money)\s+(money)\s+(money)`. -/
def afterService (cs : Chars) : Option (AfterGroups × Chars) :=
  match wsSkip1 cs with
  | none => none
  | some r1 =>
  match digitTok r1 with
  | none => none
  | some (pieces, r2) =>
  match wsSkip1 r2 with
  | none => none
  | some r3 =>
  match weightMatch r3 with
  | none => none
  | some (weight, r4) =>
  match wsSkip1 r4 with
  | none => none
  | some r5 =>
  match nonWsTok r5 with
  | none => none
  | some (reference, r6) =>
  match wsSkip1 r6 with
  | none => none
  | some r7 =>
  match numCoreRe r7 with
  | none => none
  | some (freight, r8) =>
  match wsSkip1 r8 with
  | none => none
  | some r9 =>
  match numCoreRe r9 with
  | none => none
  | some (other, r10) =>
  match wsSkip1 r10 with
  | none => none
  | some r11 =>
  match numCoreRe r11 with
  | none => none
  | some (total, r12) => some (⟨pieces, weight, reference, freight, other, total⟩, r12)

/-- `HEADER_RE` anchored at the start of `cs` (the `^` anchor is handled
by the caller).  Returns the groups and the unmatched suffix.  The
whitespace run before the service is tried longest first; the lazy
service is tried shortest first and cannot cross a newline. -/
def headerMatchAt (cs : Chars) : Option (Header × Chars) :=
  match digitTok cs with
  | none => none
  | some (ship, r1) =>
  match wsSkip1 r1 with
  | none => none
  | some r2 =>
  match dateMatch r2 with
  | none => none
  | some (date, r3) =>
    let wmax := (r3.takeWhile isWsB).length
    if wmax == 0 then none else
    firstSome (fun k =>
        let r4 := r3.drop (wmax - k)
        let lineLen := (r4.takeWhile (fun c => !(c == '\n'))).length
        firstSome (fun j =>
            (afterService (r4.drop (j + 1))).map (fun g =>
              ({ shipment := ship, ship_date := date, service := r4.take (j + 1),
                 pieces := g.1.pieces, weight := g.1.weight, reference := g.1.reference,
                 freight := g.1.freight, other_charges := g.1.other_charges,
                 total := g.1.total }, g.2)))
          (List.range lineLen))
      (List.range wmax)

/-- `HEADER_RE.finditer` with the `re.M` anchor `^`: attempt a match at
every line start, resuming after each match; `bol` records whether the
current position is a line start.  Fuel is the length of the remaining
text; each step consumes at least one character. -/
def headerFindAux : Nat → Chars → Nat → Bool → List (Nat × Header)
  | 0, _, _, _ => []
  | _ + 1, [], _, _ => []
  | fuel + 1, c :: rest, pos, bol =>
    if bol then
      match headerMatchAt (c :: rest) with
      | some (h, rem) =>
        let len := (c :: rest).length - rem.length
        (pos, h) :: headerFindAux fuel rem (pos + len)
          (((c :: rest).take len).getLast? == some '\n')
      | none => headerFindAux fuel rest (pos + 1) (c == '\n')
    else headerFindAux fuel rest (pos + 1) (c == '\n')

/-- All header matches of the document, in document order. -/
def header_finditer (text : Chars) : List (Nat × Header) :=
  headerFindAux text.length text 0 true

/-! ## `DIMS_RE` and `TENDER_SUBTOTAL_RE` -/

/-- The `\s*([\d\.]+\s*kg)` tail of `DIMS_RE` after `Billed Weight:`,
returning the captured group.  All runs are deterministic. -/
def billedPart (cs : Chars) : Option Chars :=
  let sp := cs.dropWhile isWsB
  let dd := sp.takeWhile (fun c => c.isDigit || c == '.')
  if dd.isEmpty then none else
  let r := sp.dropWhile (fun c => c.isDigit || c == '.')
  let w := r.takeWhile isWsB
  let r2 := r.dropWhile isWsB
  if (strL "kg").isPrefixOf r2 then some (dd ++ w ++ strL "kg") else none

/-- `DIMS_RE` anchored at the start of `cs`:
`Dims:\s*(?P<dims>.+?)\s+Billed Weight:\s*(?P<billed_weight>[\d\.]+\s*kg)`.
The whitespace after `Dims:` is greedy (longest first); the dims group is
lazy (shortest first) and cannot cross a newline. -/
def dimsAt (cs : Chars) : Option (Chars × Chars) :=
  if (strL "Dims:").isPrefixOf cs then
    let after := cs.drop 5
    let wmax := (after.takeWhile isWsB).length
    firstSome (fun k =>
        let rest := after.drop (wmax - k)
        let lineLen := (rest.takeWhile (fun c => !(c == '\n'))).length
        firstSome (fun j =>
            let dims := rest.take (j + 1)
            let r1 := rest.drop (j + 1)
            if (r1.takeWhile isWsB).isEmpty then none else
            let r2 := r1.dropWhile isWsB
            if (strL "Billed Weight:").isPrefixOf r2 then
              (billedPart (r2.drop 14)).map (fun bw => (dims, bw))
            else none)
          (List.range lineLen))
      (List.range (wmax + 1))
  else none

/-- `DIMS_RE.search`: leftmost occurrence anywhere in the block. -/
def dimsSearch : Chars → Option (Chars × Chars)
  | [] => none
  | c :: rest =>
    match dimsAt (c :: rest) with
    | some r => some r
    | none => dimsSearch rest

/-- `TENDER_SUBTOTAL_RE` anchored at the start of `cs`:
`Tendered Date:\s*(\d{2}/\d{2}/\d{4}).*?Subtotal INR\s*([\d,]+\.\d+)`
with `re.S`, so the lazy gap may cross newlines (smallest gap first). -/
def tenderAt (cs : Chars) : Option (Chars × Chars) :=
  if (strL "Tendered Date:").isPrefixOf cs then
    let after := (cs.drop 14).dropWhile isWsB
    match dateMatch after with
    | none => none
    | some (date, rest) =>
      firstSome (fun g =>
          let r := rest.drop g
          if (strL "Subtotal INR").isPrefixOf r then
            (numCoreRe ((r.drop 12).dropWhile isWsB)).map (fun p => (date, p.1))
          else none)
        (List.range (rest.length + 1))
  else none

/-- `TENDER_SUBTOTAL_RE.search`: leftmost occurrence in the block. -/
def tenderSearch : Chars → Option (Chars × Chars)
  | [] => none
  | c :: rest =>
    match tenderAt (c :: rest) with
    | some r => some r
    | none => tenderSearch rest

/-! ## Record assembly (`parse_blocks`) -/

/-- The nested `charges` mapping of a record. -/
structure ChargesMap where
  transportation_charge : Option Chars
  discount : Option Chars
  fuel_surcharge : Option Chars
deriving DecidableEq

/-- One output record of the engine (absent optional keys are `none`). -/
structure Record where
  shipment : Chars
  ship_date : Chars
  service : Chars
  pieces : Chars
  weight : Chars
  reference : Chars
  freight : Chars
  other_charges : Chars
  total : Chars
  dims : Option Chars := none
  billed_weight : Option Chars := none
  charges : Option ChargesMap := none
  transportation_charge : Option Chars := none
  discount : Option Chars := none
  fuel_surcharge : Option Chars := none
  tendered_date : Option Chars := none
  subtotal_inr : Option Chars := none
deriving DecidableEq

def transportationLabel : Chars := strL "Transportation Charge"
def discountLabel : Chars := strL "Discount"
def fuelLabel : Chars := strL "Fuel Surcharge"

def transportationWords : List Chars := [strL "transportation", strL "charge"]
def discountWords : List Chars := [strL "discount"]
def fuelWords : List Chars := [strL "fuel", strL "surcharge"]

/-- The per-field resolver chain of `parse_blocks` (lines 252-265 of the
source): same-line label extraction, else the AFTER/BEFORE pattern rules,
else `_find_amount_for_label`. -/
def resolveWith (label : Chars) (words : List Chars) (charges_text : Chars) : Option Chars :=
  match amount_from_label_line charges_text label with
  | some v => some v
  | none =>
    match searchAfterRe words charges_text with
    | some v => some v
    | none =>
      match searchBeforeRe words charges_text with
      | some v => some v
      | none => find_amount_for_label charges_text label 3

/-- The header-group fields of the `data` dictionary (`service` and
`weight` are stripped, as in the source). -/
def baseRecord (h : Header) : Record :=
  { shipment := h.shipment, ship_date := h.ship_date, service := stripWs h.service,
    pieces := h.pieces, weight := stripWs h.weight, reference := h.reference,
    freight := h.freight, other_charges := h.other_charges, total := h.total }

/-- `DIMS_RE` step of `parse_blocks`: attach `dims`/`billed_weight` when
the pattern occurs in the block. -/
def withDims (block : Chars) (r : Record) : Record :=
  match dimsSearch block with
  | some (d, bw) => { r with dims := some (stripWs d), billed_weight := some (stripWs bw) }
  | none => r

/-- Charges step of `parse_blocks`: resolve the three fields over the
isolated charges section; when at least one is present, attach the
nested `charges` mapping and mirror the fields at top level. -/
def withCharges (block : Chars) (r : Record) : Record :=
  let charges_text := slice_charges_section block
  let trv := resolveWith transportationLabel transportationWords charges_text
  let dsv := resolveWith discountLabel discountWords charges_text
  let fuv := resolveWith fuelLabel fuelWords charges_text
  if trv.isSome || dsv.isSome || fuv.isSome then
    { r with charges := some ⟨trv, dsv, fuv⟩,
             transportation_charge := trv, discount := dsv, fuel_surcharge := fuv }
  else r

/-- The business-rule override of `parse_blocks`: when `other_charges` is
a non-empty string, force `fuel_surcharge` equal to it, at top level and
in the nested mapping when present. -/
def withOverride (r : Record) : Record :=
  if r.other_charges.isEmpty then r
  else
    { r with fuel_surcharge := some r.other_charges,
             charges := r.charges.map (fun c => { c with fuel_surcharge := some r.other_charges }) }

/-- `TENDER_SUBTOTAL_RE` step of `parse_blocks`. -/
def withTender (block : Chars) (r : Record) : Record :=
  match tenderSearch block with
  | some (td, st) => { r with tendered_date := some td, subtotal_inr := some st }
  | none => r

/-- Assembly of one record from a header match and its block span
(`pdf_text[start:stop]`), following the statement order of the source:
header fields, dims, charges resolution over the isolated charges
section, the fuel-surcharge override, then tender/subtotal. -/
def mk_record (text : Chars) (start stop : Nat) (h : Header) : Record :=
  let block := segSlice text start stop
  withTender block (withOverride (withCharges block (withDims block (baseRecord h))))

/-- End of the current block: the start of the next match, or the end of
the document for the last block. -/
def nextStop (text : Chars) : List (Nat × Header) → Nat
  | (s2, _) :: _ => s2
  | [] => text.length

/-- The per-match loop of `parse_blocks`: each block ends at the start of
the next match, the last block at the end of the document. -/
def blocksAux (text : Chars) : List (Nat × Header) → List Record
  | [] => []
  | (s, h) :: rest => mk_record text s (nextStop text rest) h :: blocksAux text rest

/-- `parse_blocks` from the source: the full recovery engine. -/
def parse_blocks (text : Chars) : List Record :=
  blocksAux text (header_finditer text)

/-! ## The by-reference lookups (`app.py` and `main`) -/

/-- Possible shapes of a by-reference lookup response. -/
inductive ApiResult where
  | err (reference : Chars)
  | one (r : Record)
  | many (rs : List Record)
deriving DecidableEq

/-- `fedex_by_reference` from `app.py`: explicit not-found error on zero
matches, the single record on one, the full list otherwise. -/
def fedex_by_reference (blocks : List Record) (reference : Chars) : ApiResult :=
  match blocks.filter (fun b => b.reference == reference) with
  | [] => .err reference
  | [r] => .one r
  | rs => .many rs

/-- The `--ref` path of `main` in `parse_fedex_invoice.py`: it prints
`selection[0] if len(selection) == 1 else selection` and has no error
branch, so zero matches produce the empty list. -/
def main_ref_selection (blocks : List Record) (reference : Chars) : ApiResult :=
  match blocks.filter (fun b => b.reference == reference) with
  | [r] => .one r
  | rs => .many rs

/-! ## Basic lemmas -/

theorem length_dropWhile_le (p : Char → Bool) (l : Chars) :
    (l.dropWhile p).length ≤ l.length := by
  induction l with
  | nil => simp
  | cons c cs ih =>
    by_cases h : p c
    · simpa [List.dropWhile_cons, h] using Nat.le_succ_of_le ih
    · simp [List.dropWhile_cons, h]

theorem firstSome_eq_some {α β : Type} {f : α → Option β} {l : List α} {b : β}
    (h : firstSome f l = some b) : ∃ a ∈ l, f a = some b := by
  induction l with
  | nil => simp [firstSome] at h
  | cons a l ih =>
    by_cases ha : (f a).isSome
    · rcases Option.isSome_iff_exists.mp ha with ⟨b', hb'⟩
      refine ⟨a, List.mem_cons_self a l, ?_⟩
      simpa [firstSome, hb'] using h
    · rw [Option.not_isSome_iff_eq_none] at ha
      simp only [firstSome, ha] at h
      rcases ih h with ⟨a', ha', hfa'⟩
      exact ⟨a', List.mem_cons_of_mem _ ha', hfa'⟩

theorem firstSome_eq_none {α β : Type} {f : α → Option β} {l : List α}
    (h : ∀ a ∈ l, f a = none) : firstSome f l = none := by
  induction l with
  | nil => rfl
  | cons a l ih =>
    have ha := h a (List.mem_cons_self a l)
    simpa [firstSome, ha] using ih (fun x hx => h x (List.mem_cons_of_mem _ hx))

theorem firstIdxWhere_eq_none {α : Type} {p : α → Bool} {l : List α}
    (h : ∀ a ∈ l, p a = false) : firstIdxWhere p l = none := by
  induction l with
  | nil => rfl
  | cons a l ih =>
    have ha := h a (List.mem_cons_self a l)
    simpa [firstIdxWhere, ha] using ih (fun x hx => h x (List.mem_cons_of_mem _ hx))

theorem minList_spec {l : List Nat} {m : Nat} (h : minList l = some m) :
    m ∈ l ∧ ∀ x ∈ l, m ≤ x := by
  match l with
  | [] => simp [minList] at h
  | x :: xs =>
    simp only [minList, Option.some.injEq] at h
    subst h
    induction xs generalizing x with
    | nil => simp
    | cons y ys ih =>
      have hfold : (y :: ys).foldl (fun a b => if a ≤ b then a else b) x =
          ys.foldl (fun a b => if a ≤ b then a else b) (if x ≤ y then x else y) := rfl
      rw [hfold]
      rcases ih (if x ≤ y then x else y) with ⟨hmem, hle⟩
      have hminle : ys.foldl (fun a b => if a ≤ b then a else b) (if x ≤ y then x else y) ≤
          (if x ≤ y then x else y) := hle _ (List.mem_cons_self _ _)
      constructor
      · rcases List.mem_cons.mp hmem with hm | hm
        · by_cases hxy : x ≤ y
          · rw [if_pos hxy] at hm ⊢
            rw [hm]
            exact List.mem_cons_self _ _
          · rw [if_neg hxy] at hm ⊢
            rw [hm]
            exact List.mem_cons_of_mem _ (List.mem_cons_self _ _)
        · exact List.mem_cons_of_mem _ (List.mem_cons_of_mem _ hm)
      · intro z hz
        have hmin_le_x : (if x ≤ y then x else y) ≤ x := by
          by_cases hxy : x ≤ y
          · rw [if_pos hxy]
          · rw [if_neg hxy]; omega
        have hmin_le_y : (if x ≤ y then x else y) ≤ y := by
          by_cases hxy : x ≤ y
          · rw [if_pos hxy]; exact hxy
          · rw [if_neg hxy]
        rcases List.mem_cons.mp hz with rfl | hz'
        · exact le_trans hminle hmin_le_x
        · rcases List.mem_cons.mp hz' with rfl | hz2
          · exact le_trans hminle hmin_le_y
          · exact hle z (List.mem_cons_of_mem _ hz2)

theorem findSubFrom_start_le {hay needle : Chars} {start e : Nat}
    (h : findSubFrom hay needle start = some e) : start ≤ e := by
  have := List.find?_some h
  simp only [Bool.and_eq_true] at this
  exact Nat.le_of_ble_eq_true this.1

/-! ## Structure of the numeric matchers -/

theorem numCoreRe_split {cs tok rem : Chars} (h : numCoreRe cs = some (tok, rem)) :
    tok ++ rem = cs ∧ tok ≠ [] := by
  unfold numCoreRe at h
  dsimp only at h
  split at h
  · exact absurd h (by simp)
  next h1 =>
  split at h
  next rest1 rest2 heq =>
    split at h
    · exact absurd h (by simp)
    next h2 =>
      rw [Option.some.injEq, Prod.mk.injEq] at h
      obtain ⟨htok, hrem⟩ := h
      have e1 : cs.takeWhile isNumChar ++ cs.dropWhile isNumChar = cs :=
        List.takeWhile_append_dropWhile isNumChar cs
      have e2 : rest2.takeWhile isDigitB ++ rest2.dropWhile isDigitB = rest2 :=
        List.takeWhile_append_dropWhile isDigitB rest2
      constructor
      · calc tok ++ rem
            = cs.takeWhile isNumChar ++
                '.' :: (rest2.takeWhile isDigitB ++ rest2.dropWhile isDigitB) := by
              rw [← htok, ← hrem]; simp
          _ = cs.takeWhile isNumChar ++ '.' :: rest2 := by rw [e2]
          _ = cs.takeWhile isNumChar ++ cs.dropWhile isNumChar := by rw [heq]
          _ = cs := e1
      · rw [← htok]
        intro hn
        rw [List.isEmpty_iff] at h1
        exact h1 (List.append_eq_nil.mp hn).1
  next => exact absurd h (by simp)

theorem numCorePat_split {cs tok rem : Chars} (h : numCorePat cs = some (tok, rem)) :
    tok ++ rem = cs ∧ tok ≠ [] := by
  unfold numCorePat at h
  dsimp only at h
  split at h
  · exact absurd h (by simp)
  next h1 =>
  rw [List.isEmpty_iff] at h1
  have e1 : cs.takeWhile isNumChar ++ cs.dropWhile isNumChar = cs :=
    List.takeWhile_append_dropWhile isNumChar cs
  split at h
  next rest1 rest2 heq =>
    split at h
    · rw [Option.some.injEq, Prod.mk.injEq] at h
      obtain ⟨htok, hrem⟩ := h
      exact ⟨by rw [← htok, ← hrem, e1], fun hn => h1 (htok ▸ hn)⟩
    next h2 =>
      rw [Option.some.injEq, Prod.mk.injEq] at h
      obtain ⟨htok, hrem⟩ := h
      have e2 : rest2.takeWhile isDigitB ++ rest2.dropWhile isDigitB = rest2 :=
        List.takeWhile_append_dropWhile isDigitB rest2
      constructor
      · calc tok ++ rem
            = cs.takeWhile isNumChar ++
                '.' :: (rest2.takeWhile isDigitB ++ rest2.dropWhile isDigitB) := by
              rw [← htok, ← hrem]; simp
          _ = cs.takeWhile isNumChar ++ '.' :: rest2 := by rw [e2]
          _ = cs.takeWhile isNumChar ++ cs.dropWhile isNumChar := by rw [heq]
          _ = cs := e1
      · rw [← htok]
        intro hn
        exact h1 (List.append_eq_nil.mp hn).1
  next =>
    rw [Option.some.injEq, Prod.mk.injEq] at h
    obtain ⟨htok, hrem⟩ := h
    exact ⟨by rw [← htok, ← hrem, e1], fun hn => h1 (htok ▸ hn)⟩

theorem numReMatchAt_split {cs tok rem : Chars} (h : numReMatchAt cs = some (tok, rem)) :
    tok ++ rem = cs ∧ tok ≠ [] := by
  unfold numReMatchAt at h
  split at h
  next c rest =>
    rcases hco : numCoreRe rest with _ | ⟨t, r⟩ <;> rw [hco] at h
    · exact absurd h (by simp)
    · simp only [Option.map_some', Option.some.injEq, Prod.mk.injEq] at h
      obtain ⟨ht, hr⟩ := h
      rcases numCoreRe_split hco with ⟨happ, _⟩
      refine ⟨?_, by rw [← ht]; simp⟩
      rw [← ht, ← hr]
      simpa using happ
  next => exact numCoreRe_split h

theorem numPatMatchAt_split {cs tok rem : Chars} (h : numPatMatchAt cs = some (tok, rem)) :
    tok ++ rem = cs ∧ tok ≠ [] := by
  unfold numPatMatchAt at h
  split at h
  next c rest =>
    rcases hco : numCorePat rest with _ | ⟨t, r⟩ <;> rw [hco] at h
    · exact absurd h (by simp)
    · simp only [Option.map_some', Option.some.injEq, Prod.mk.injEq] at h
      obtain ⟨ht, hr⟩ := h
      rcases numCorePat_split hco with ⟨happ, _⟩
      refine ⟨?_, by rw [← ht]; simp⟩
      rw [← ht, ← hr]
      simpa using happ
  next => exact numCorePat_split h

theorem numReMatchAt_rem_lt {cs tok rem : Chars} (h : numReMatchAt cs = some (tok, rem)) :
    rem.length < cs.length := by
  rcases numReMatchAt_split h with ⟨happ, hne⟩
  have : tok.length + rem.length = cs.length := by
    rw [← happ, List.length_append]
  have htok : 0 < tok.length := List.length_pos.mpr hne
  omega

/-! ## Positions produced by the `NUM_RE` iterator -/

theorem numIterAux_pos_le {fuel : Nat} :
    ∀ {cs : Chars} {pos : Nat} {e : Nat × Chars},
      e ∈ numIterAux fuel cs pos → pos ≤ e.1 := by
  induction fuel with
  | zero => intro cs pos e h; simp [numIterAux] at h
  | succ fuel ih =>
    intro cs pos e h
    match cs with
    | [] => simp [numIterAux] at h
    | c :: rest =>
      rw [numIterAux] at h
      rcases hm : numReMatchAt (c :: rest) with _ | ⟨tok, rem⟩ <;> rw [hm] at h
      · exact Nat.le_of_succ_le (ih h)
      · rcases List.mem_cons.mp h with rfl | h2
        · exact Nat.le_refl _
        · have := ih h2
          omega

theorem numIterAux_pairwise {fuel : Nat} :
    ∀ {cs : Chars} {pos : Nat},
      (numIterAux fuel cs pos).Pairwise (fun a b => a.1 < b.1) := by
  induction fuel with
  | zero => intro cs pos; simp [numIterAux]
  | succ fuel ih =>
    intro cs pos
    match cs with
    | [] => simp [numIterAux]
    | c :: rest =>
      rw [numIterAux]
      rcases hm : numReMatchAt (c :: rest) with _ | ⟨tok, rem⟩
      · exact ih
      · refine List.pairwise_cons.mpr ⟨?_, ih⟩
        intro e he
        have hle := numIterAux_pos_le he
        have hpos : 0 < tok.length := List.length_pos.mpr (numReMatchAt_split hm).2
        omega

theorem numFindIterPos_pairwise (cs : Chars) :
    (numFindIterPos cs).Pairwise (fun a b => a.1 < b.1) :=
  numIterAux_pairwise

theorem numbers_in_segment_pos_pairwise (seg : Chars) :
    (numbers_in_segment_pos seg).Pairwise (fun a b => a.1 < b.1) :=
  (numFindIterPos_pairwise seg).filter _

/-- In a strictly position-sorted list, the last entry has the maximal
position. -/
theorem getLast?_pos_max {l : List (Nat × Chars)}
    (hp : l.Pairwise (fun a b => a.1 < b.1)) {e : Nat × Chars}
    (hl : l.getLast? = some e) : ∀ x ∈ l, x.1 ≤ e.1 := by
  induction l with
  | nil => simp at hl
  | cons a l ih =>
    rcases List.pairwise_cons.mp hp with ⟨ha, hp'⟩
    match l, hl with
    | [], hl =>
      rw [List.getLast?_singleton, Option.some.injEq] at hl
      intro x hx
      rcases List.mem_singleton.mp hx with rfl
      exact hl ▸ Nat.le_refl _
    | b :: l', hl =>
      have hl' : (b :: l').getLast? = some e := by
        rwa [List.getLast?_cons_cons] at hl
      intro x hx
      rcases List.mem_cons.mp hx with rfl | hx'
      · have hbe : b.1 ≤ e.1 := ih hp' hl' b (List.mem_cons_self _ _)
        have hab : x.1 < b.1 := ha b (List.mem_cons_self _ _)
        omega
      · exact ih hp' hl' x hx'

/-! ## Length bounds for the header matcher -/

theorem wsSkip1_le {cs r : Chars} (h : wsSkip1 cs = some r) : r.length ≤ cs.length := by
  unfold wsSkip1 at h
  split at h
  · exact absurd h (by simp)
  · rw [Option.some.injEq] at h
    exact h ▸ length_dropWhile_le _ _

theorem digitTok_le {cs d r : Chars} (h : digitTok cs = some (d, r)) :
    r.length ≤ cs.length := by
  unfold digitTok at h
  dsimp only at h
  split at h
  · exact absurd h (by simp)
  · simp only [Option.some.injEq, Prod.mk.injEq] at h
    exact h.2 ▸ length_dropWhile_le _ _

theorem nonWsTok_le {cs d r : Chars} (h : nonWsTok cs = some (d, r)) :
    r.length ≤ cs.length := by
  unfold nonWsTok at h
  dsimp only at h
  split at h
  · exact absurd h (by simp)
  · simp only [Option.some.injEq, Prod.mk.injEq] at h
    exact h.2 ▸ length_dropWhile_le _ _

theorem exactDigits_le {n : Nat} {cs d r : Chars} (h : exactDigits n cs = some (d, r)) :
    r.length ≤ cs.length := by
  unfold exactDigits at h
  dsimp only at h
  split at h
  · simp only [Option.some.injEq, Prod.mk.injEq] at h
    rw [← h.2, List.length_drop]
    omega
  · exact absurd h (by simp)

theorem dateMatch_le {cs d r : Chars} (h : dateMatch cs = some (d, r)) :
    r.length ≤ cs.length := by
  unfold dateMatch at h
  split at h
  · exact absurd h (by simp)
  next d1 r1 h1 =>
  split at h
  next r2 =>
    split at h
    · exact absurd h (by simp)
    next d2 r3 h2 =>
    split at h
    next r4 =>
      split at h
      · exact absurd h (by simp)
      next d3 r5 h3 =>
      simp only [Option.some.injEq, Prod.mk.injEq] at h
      have e1 : ('/' :: r2 : Chars).length ≤ cs.length := exactDigits_le h1
      have e2 : ('/' :: r4 : Chars).length ≤ r2.length := exactDigits_le h2
      have e3 : r5.length ≤ r4.length := exactDigits_le h3
      rw [← h.2]
      simp only [List.length_cons] at e1 e2 e3 ⊢
      omega
    next => exact absurd h (by simp)
  next => exact absurd h (by simp)

theorem weightMatch_le {cs w r : Chars} (h : weightMatch cs = some (w, r)) :
    r.length ≤ cs.length := by
  unfold weightMatch at h
  dsimp only at h
  split at h
  · exact absurd h (by simp)
  next h1 =>
  have hd : (cs.dropWhile isDigitB).length ≤ cs.length := length_dropWhile_le _ _
  split at h
  next x hx =>
    rw [Option.some.injEq] at h
    split at hx
    next a rr2 heq2 =>
      split at hx
      · exact absurd hx (by simp)
      next h2 =>
      split at hx
      next hkg =>
        rw [Option.some.injEq] at hx
        have ht : (((rr2.dropWhile isDigitB).dropWhile isWsB).drop 2) = r := by
          have t := congrArg Prod.snd hx
          rw [h] at t
          exact t
        have hlen : ('.' :: rr2 : Chars).length ≤ cs.length := by
          rw [← heq2]
          exact length_dropWhile_le _ _
        have h3 : ((rr2.dropWhile isDigitB).dropWhile isWsB).length ≤ rr2.length :=
          le_trans (length_dropWhile_le _ _) (length_dropWhile_le _ _)
        have h4 : (((rr2.dropWhile isDigitB).dropWhile isWsB).drop 2).length ≤
            ((rr2.dropWhile isDigitB).dropWhile isWsB).length := by
          rw [List.length_drop]; omega
        rw [← ht]
        simp only [List.length_cons] at hlen
        omega
      · exact absurd hx (by simp)
    next => exact absurd hx (by simp)
  next =>
    split at h
    next hkg =>
      rw [Option.some.injEq, Prod.mk.injEq] at h
      rw [← h.2]
      have h3 : ((cs.dropWhile isDigitB).dropWhile isWsB).length ≤ cs.length :=
        le_trans (length_dropWhile_le _ _) hd
      have h4 : (((cs.dropWhile isDigitB).dropWhile isWsB).drop 2).length ≤
          ((cs.dropWhile isDigitB).dropWhile isWsB).length := by
        rw [List.length_drop]; omega
      omega
    · exact absurd h (by simp)

theorem digitTok_lt {cs d r : Chars} (h : digitTok cs = some (d, r)) :
    r.length < cs.length := by
  unfold digitTok at h
  dsimp only at h
  split at h
  · exact absurd h (by simp)
  next hne =>
    simp only [Option.some.injEq, Prod.mk.injEq] at h
    have e : cs.takeWhile isDigitB ++ cs.dropWhile isDigitB = cs :=
      List.takeWhile_append_dropWhile isDigitB cs
    have hlen : (cs.takeWhile isDigitB).length + (cs.dropWhile isDigitB).length = cs.length := by
      rw [← List.length_append, e]
    have hpos : 0 < (cs.takeWhile isDigitB).length := by
      rw [List.isEmpty_iff] at hne
      exact List.length_pos.mpr hne
    rw [← h.2]
    omega

theorem afterService_le {cs : Chars} {g : AfterGroups} {rem : Chars}
    (h : afterService cs = some (g, rem)) : rem.length ≤ cs.length := by
  unfold afterService at h
  split at h
  · exact absurd h (by simp)
  next r1 e1 =>
  split at h
  · exact absurd h (by simp)
  next pieces r2 e2 =>
  split at h
  · exact absurd h (by simp)
  next r3 e3 =>
  split at h
  · exact absurd h (by simp)
  next wt r4 e4 =>
  split at h
  · exact absurd h (by simp)
  next r5 e5 =>
  split at h
  · exact absurd h (by simp)
  next refc r6 e6 =>
  split at h
  · exact absurd h (by simp)
  next r7 e7 =>
  split at h
  · exact absurd h (by simp)
  next fr r8 e8 =>
  split at h
  · exact absurd h (by simp)
  next r9 e9 =>
  split at h
  · exact absurd h (by simp)
  next oth r10 e10 =>
  split at h
  · exact absurd h (by simp)
  next r11 e11 =>
  split at h
  · exact absurd h (by simp)
  next tot r12 e12 =>
  simp only [Option.some.injEq, Prod.mk.injEq] at h
  have l1 := wsSkip1_le e1
  have l2 := digitTok_le e2
  have l3 := wsSkip1_le e3
  have l4 := weightMatch_le e4
  have l5 := wsSkip1_le e5
  have l6 := nonWsTok_le e6
  have l7 := wsSkip1_le e7
  have l8 := (numCoreRe_split e8).1
  have l9 := wsSkip1_le e9
  have l10 := (numCoreRe_split e10).1
  have l11 := wsSkip1_le e11
  have l12 := (numCoreRe_split e12).1
  have n8 : r8.length ≤ r7.length := by
    have := congrArg List.length l8
    simp only [List.length_append] at this
    omega
  have n10 : r10.length ≤ r9.length := by
    have := congrArg List.length l10
    simp only [List.length_append] at this
    omega
  have n12 : r12.length ≤ r11.length := by
    have := congrArg List.length l12
    simp only [List.length_append] at this
    omega
  rw [← h.2]
  omega

theorem afterService_other_ne {cs : Chars} {g : AfterGroups} {rem : Chars}
    (h : afterService cs = some (g, rem)) : g.other_charges ≠ [] := by
  unfold afterService at h
  split at h
  · exact absurd h (by simp)
  next r1 e1 =>
  split at h
  · exact absurd h (by simp)
  next pieces r2 e2 =>
  split at h
  · exact absurd h (by simp)
  next r3 e3 =>
  split at h
  · exact absurd h (by simp)
  next wt r4 e4 =>
  split at h
  · exact absurd h (by simp)
  next r5 e5 =>
  split at h
  · exact absurd h (by simp)
  next refc r6 e6 =>
  split at h
  · exact absurd h (by simp)
  next r7 e7 =>
  split at h
  · exact absurd h (by simp)
  next fr r8 e8 =>
  split at h
  · exact absurd h (by simp)
  next r9 e9 =>
  split at h
  · exact absurd h (by simp)
  next oth r10 e10 =>
  split at h
  · exact absurd h (by simp)
  next r11 e11 =>
  split at h
  · exact absurd h (by simp)
  next tot r12 e12 =>
  simp only [Option.some.injEq, Prod.mk.injEq] at h
  have hg : g.other_charges = oth := by rw [← h.1]
  rw [hg]
  exact (numCoreRe_split e10).2

theorem headerMatchAt_rem_lt {cs : Chars} {h : Header} {rem : Chars}
    (hm : headerMatchAt cs = some (h, rem)) : rem.length < cs.length := by
  unfold headerMatchAt at hm
  split at hm
  · exact absurd hm (by simp)
  next ship r1 e1 =>
  split at hm
  · exact absurd hm (by simp)
  next r2 e2 =>
  split at hm
  · exact absurd hm (by simp)
  next date r3 e3 =>
  dsimp only at hm
  split at hm
  · exact absurd hm (by simp)
  next hw =>
  rcases firstSome_eq_some hm with ⟨k, hk, hinner⟩
  rcases firstSome_eq_some hinner with ⟨j, hj, hmap⟩
  rw [List.mem_range] at hj
  rcases Option.map_eq_some'.mp hmap with ⟨⟨g, r12⟩, hps, hpair⟩
  have hrem : rem = r12 := (congrArg Prod.snd hpair).symm
  subst hrem
  have hserv := afterService_le hps
  have l1 : r1.length < cs.length := digitTok_lt e1
  have l2 : r2.length ≤ r1.length := wsSkip1_le e2
  have l3 : r3.length ≤ r2.length := dateMatch_le e3
  have l4 : (r3.drop ((r3.takeWhile isWsB).length - k)).length ≤ r3.length := by
    rw [List.length_drop]
    omega
  have l5 : ((r3.drop ((r3.takeWhile isWsB).length - k)).drop (j + 1)).length =
      (r3.drop ((r3.takeWhile isWsB).length - k)).length - (j + 1) :=
    List.length_drop _ _
  have l6 : j + 1 ≤ (r3.drop ((r3.takeWhile isWsB).length - k)).length := by
    have : ((r3.drop ((r3.takeWhile isWsB).length - k)).takeWhile
        (fun c => !(c == '\n'))).length ≤
        (r3.drop ((r3.takeWhile isWsB).length - k)).length := by
      conv_rhs => rw [← List.takeWhile_append_dropWhile
        (fun c => !(c == '\n')) (r3.drop ((r3.takeWhile isWsB).length - k))]
      rw [List.length_append]
      omega
    omega
  omega

/-! ## Document order of the header iterator -/

theorem headerFindAux_pos_le {fuel : Nat} :
    ∀ {cs : Chars} {pos : Nat} {bol : Bool} {e : Nat × Header},
      e ∈ headerFindAux fuel cs pos bol → pos ≤ e.1 := by
  induction fuel with
  | zero => intro cs pos bol e h; simp [headerFindAux] at h
  | succ fuel ih =>
    intro cs pos bol e h
    match cs with
    | [] => simp [headerFindAux] at h
    | c :: rest =>
      rw [headerFindAux] at h
      by_cases hbol : bol
      · rw [if_pos hbol] at h
        rcases hm : headerMatchAt (c :: rest) with _ | ⟨hd, rem⟩ <;> rw [hm] at h
        · exact Nat.le_of_succ_le (ih h)
        · rcases List.mem_cons.mp h with rfl | h2
          · exact Nat.le_refl _
          · have := ih h2
            omega
      · rw [if_neg hbol] at h
        exact Nat.le_of_succ_le (ih h)

theorem headerFindAux_pairwise {fuel : Nat} :
    ∀ {cs : Chars} {pos : Nat} {bol : Bool},
      (headerFindAux fuel cs pos bol).Pairwise (fun a b => a.1 < b.1) := by
  induction fuel with
  | zero => intro cs pos bol; simp [headerFindAux]
  | succ fuel ih =>
    intro cs pos bol
    match cs with
    | [] => simp [headerFindAux]
    | c :: rest =>
      rw [headerFindAux]
      by_cases hbol : bol
      · rw [if_pos hbol]
        rcases hm : headerMatchAt (c :: rest) with _ | ⟨hd, rem⟩
        · exact ih
        · refine List.pairwise_cons.mpr ⟨?_, ih⟩
          intro e he
          have hle := headerFindAux_pos_le he
          have hlt := headerMatchAt_rem_lt hm
          have : 1 ≤ (c :: rest).length - rem.length := by
            simp only [List.length_cons] at hlt ⊢
            omega
          omega
      · rw [if_neg hbol]
        exact ih

theorem header_finditer_pairwise (text : Chars) :
    (header_finditer text).Pairwise (fun a b => a.1 < b.1) :=
  headerFindAux_pairwise

/-- Every header match has a non-empty `other_charges` group (the group
matches `[\d,]+\.\d+`, which requires at least three characters). -/
theorem headerMatchAt_other_ne {cs : Chars} {h : Header} {rem : Chars}
    (hm : headerMatchAt cs = some (h, rem)) : h.other_charges ≠ [] := by
  unfold headerMatchAt at hm
  split at hm
  · exact absurd hm (by simp)
  next ship r1 e1 =>
  split at hm
  · exact absurd hm (by simp)
  next r2 e2 =>
  split at hm
  · exact absurd hm (by simp)
  next date r3 e3 =>
  dsimp only at hm
  split at hm
  · exact absurd hm (by simp)
  next hw =>
  rcases firstSome_eq_some hm with ⟨k, hk, hinner⟩
  rcases firstSome_eq_some hinner with ⟨j, hj, hmap⟩
  rcases Option.map_eq_some'.mp hmap with ⟨⟨g, r12⟩, hps, hpair⟩
  have hh : h.other_charges = g.other_charges := by
    have := congrArg (fun p => p.1.other_charges) hpair
    exact this.symm
  rw [hh]
  exact afterService_other_ne hps

theorem headerFindAux_other_ne {fuel : Nat} :
    ∀ {cs : Chars} {pos : Nat} {bol : Bool} {e : Nat × Header},
      e ∈ headerFindAux fuel cs pos bol → e.2.other_charges ≠ [] := by
  induction fuel with
  | zero => intro cs pos bol e h; simp [headerFindAux] at h
  | succ fuel ih =>
    intro cs pos bol e h
    match cs with
    | [] => simp [headerFindAux] at h
    | c :: rest =>
      rw [headerFindAux] at h
      by_cases hbol : bol
      · rw [if_pos hbol] at h
        rcases hm : headerMatchAt (c :: rest) with _ | ⟨hd, rem⟩ <;> rw [hm] at h
        · exact ih h
        · rcases List.mem_cons.mp h with rfl | h2
          · exact headerMatchAt_other_ne hm
          · exact ih h2
      · rw [if_neg hbol] at h
        exact ih h

theorem header_finditer_other_ne {text : Chars} {e : Nat × Header}
    (h : e ∈ header_finditer text) : e.2.other_charges ≠ [] :=
  headerFindAux_other_ne h

/-! ## Record assembly lemmas -/

theorem withDims_shipment (b : Chars) (r : Record) : (withDims b r).shipment = r.shipment := by
  unfold withDims
  split <;> rfl

theorem withCharges_shipment (b : Chars) (r : Record) :
    (withCharges b r).shipment = r.shipment := by
  unfold withCharges
  dsimp only
  split <;> rfl

theorem withOverride_shipment (r : Record) : (withOverride r).shipment = r.shipment := by
  unfold withOverride
  split <;> rfl

theorem withTender_shipment (b : Chars) (r : Record) :
    (withTender b r).shipment = r.shipment := by
  unfold withTender
  split <;> rfl

theorem mk_record_shipment (text : Chars) (start stop : Nat) (h : Header) :
    (mk_record text start stop h).shipment = h.shipment := by
  unfold mk_record
  rw [withTender_shipment, withOverride_shipment, withCharges_shipment, withDims_shipment]
  rfl

theorem withDims_other (b : Chars) (r : Record) :
    (withDims b r).other_charges = r.other_charges := by
  unfold withDims
  split <;> rfl

theorem withCharges_other (b : Chars) (r : Record) :
    (withCharges b r).other_charges = r.other_charges := by
  unfold withCharges
  dsimp only
  split <;> rfl

theorem withOverride_other (r : Record) : (withOverride r).other_charges = r.other_charges := by
  unfold withOverride
  split <;> rfl

theorem withTender_other (b : Chars) (r : Record) :
    (withTender b r).other_charges = r.other_charges := by
  unfold withTender
  split <;> rfl

theorem withTender_fuel (b : Chars) (r : Record) :
    (withTender b r).fuel_surcharge = r.fuel_surcharge := by
  unfold withTender
  split <;> rfl

theorem withTender_charges (b : Chars) (r : Record) :
    (withTender b r).charges = r.charges := by
  unfold withTender
  split <;> rfl

/-- The override step forces the fuel surcharge whenever `other_charges`
is non-empty. -/
theorem withOverride_fuel {r : Record} (h : r.other_charges ≠ []) :
    (withOverride r).fuel_surcharge = some r.other_charges ∧
      (withOverride r).charges = r.charges.map
        (fun c => { c with fuel_surcharge := some r.other_charges }) := by
  unfold withOverride
  rw [if_neg (by simpa [List.isEmpty_iff] using h)]
  exact ⟨rfl, rfl⟩

theorem blocksAux_length (text : Chars) (ms : List (Nat × Header)) :
    (blocksAux text ms).length = ms.length := by
  induction ms with
  | nil => rfl
  | cons a rest ih =>
    obtain ⟨s, h⟩ := a
    simp only [blocksAux, List.length_cons, ih]

/-- Each record of `blocksAux` is the `mk_record` of the corresponding
match, so membership exposes the originating match. -/
theorem blocksAux_mem {text : Chars} {ms : List (Nat × Header)} {r : Record}
    (h : r ∈ blocksAux text ms) :
    ∃ s hd stop, (s, hd) ∈ ms ∧ r = mk_record text s stop hd := by
  induction ms with
  | nil => simp [blocksAux] at h
  | cons a rest ih =>
    obtain ⟨s, hd⟩ := a
    have hunfold : blocksAux text ((s, hd) :: rest) =
        mk_record text s (nextStop text rest) hd :: blocksAux text rest := rfl
    rw [hunfold] at h
    rcases List.mem_cons.mp h with rfl | h2
    · exact ⟨s, hd, nextStop text rest, List.mem_cons_self _ _, rfl⟩
    · rcases ih h2 with ⟨s', hd', stop', hm, hr⟩
      exact ⟨s', hd', stop', List.mem_cons_of_mem _ hm, hr⟩

theorem blocksAux_getElem (text : Chars) (ms : List (Nat × Header)) (i : Nat) :
    ((blocksAux text ms)[i]?).map Record.shipment =
      (ms[i]?).map (fun m => m.2.shipment) := by
  induction ms generalizing i with
  | nil => simp [blocksAux]
  | cons a rest ih =>
    obtain ⟨s, h⟩ := a
    match i with
    | 0 =>
      simp only [blocksAux, List.getElem?_cons_zero, Option.map_some']
      rw [mk_record_shipment]
    | i + 1 =>
      simp only [blocksAux, List.getElem?_cons_succ]
      exact ih i

/-! ## The largest-absolute-value tie-break -/

theorem absLtB_iff (a b : Int × Nat) :
    absLtB a b = true ↔
      |(a.1 : ℚ) / (10 : ℚ) ^ a.2| < |(b.1 : ℚ) / (10 : ℚ) ^ b.2| := by
  unfold absLtB
  rw [decide_eq_true_eq]
  rw [abs_div, abs_div, abs_pow, abs_pow]
  have h10 : |(10 : ℚ)| = 10 := by norm_num
  rw [h10]
  have hpa : (0 : ℚ) < 10 ^ a.2 := by positivity
  have hpb : (0 : ℚ) < 10 ^ b.2 := by positivity
  rw [div_lt_div_iff₀ hpa hpb]
  rw [← @Nat.cast_lt ℚ]
  push_cast [Int.cast_natAbs]
  constructor
  · intro h
    exact h
  · intro h
    exact h

theorem absLtB_decVal_iff (x y : Chars) :
    absLtB (decScaled x) (decScaled y) = true ↔ |decVal x| < |decVal y| := by
  unfold decVal
  exact absLtB_iff (decScaled x) (decScaled y)

theorem foldlMax_mem (xs : List Chars) :
    ∀ x : Chars,
      xs.foldl (fun b c => if absLtB (decScaled b) (decScaled c) then c else b) x ∈ x :: xs := by
  induction xs with
  | nil => intro x; simp
  | cons c cs ih =>
    intro x
    have hstep : (c :: cs).foldl (fun b c => if absLtB (decScaled b) (decScaled c) then c else b) x =
        cs.foldl (fun b c => if absLtB (decScaled b) (decScaled c) then c else b)
          (if absLtB (decScaled x) (decScaled c) then c else x) := rfl
    rw [hstep]
    rcases List.mem_cons.mp (ih (if absLtB (decScaled x) (decScaled c) then c else x)) with hm | hm
    · rw [hm]
      by_cases hb : absLtB (decScaled x) (decScaled c) = true
      · rw [if_pos hb]
        exact List.mem_cons_of_mem _ (List.mem_cons_self _ _)
      · rw [if_neg hb]
        exact List.mem_cons_self _ _
    · exact List.mem_cons_of_mem _ (List.mem_cons_of_mem _ hm)

theorem foldlMax_ge (xs : List Chars) :
    ∀ x : Chars, ∀ d ∈ x :: xs,
      |decVal d| ≤
        |decVal (xs.foldl (fun b c => if absLtB (decScaled b) (decScaled c) then c else b) x)| := by
  induction xs with
  | nil =>
    intro x d hd
    rcases List.mem_cons.mp hd with rfl | h
    · simp [List.foldl]
    · simp at h
  | cons c cs ih =>
    intro x d hd
    have hstep : (c :: cs).foldl (fun b c => if absLtB (decScaled b) (decScaled c) then c else b) x =
        cs.foldl (fun b c => if absLtB (decScaled b) (decScaled c) then c else b)
          (if absLtB (decScaled x) (decScaled c) then c else x) := rfl
    rw [hstep]
    have hacc : |decVal x| ≤ |decVal (if absLtB (decScaled x) (decScaled c) then c else x)| ∧
        |decVal c| ≤ |decVal (if absLtB (decScaled x) (decScaled c) then c else x)| := by
      by_cases hb : absLtB (decScaled x) (decScaled c) = true
      · rw [if_pos hb]
        exact ⟨le_of_lt ((absLtB_decVal_iff x c).mp hb), le_refl _⟩
      · rw [if_neg hb]
        have hnlt : ¬ |decVal x| < |decVal c| := fun hlt =>
          hb ((absLtB_decVal_iff x c).mpr hlt)
        exact ⟨le_refl _, le_of_not_lt hnlt⟩
    have haccmax := ih (if absLtB (decScaled x) (decScaled c) then c else x)
      (if absLtB (decScaled x) (decScaled c) then c else x) (List.mem_cons_self _ _)
    rcases List.mem_cons.mp hd with rfl | hd2
    · exact le_trans hacc.1 haccmax
    · rcases List.mem_cons.mp hd2 with rfl | hd3
      · exact le_trans hacc.2 haccmax
      · exact ih _ _ (List.mem_cons_of_mem _ hd3)

theorem maxAbsFirst_mem (x : Chars) (xs : List Chars) : maxAbsFirst x xs ∈ x :: xs :=
  foldlMax_mem xs x

theorem maxAbsFirst_ge (x : Chars) (xs : List Chars) :
    ∀ c ∈ x :: xs, |decVal c| ≤ |decVal (maxAbsFirst x xs)| :=
  foldlMax_ge xs x

/-! ## Absence degrades to missing fields -/

theorem amount_from_label_line_none {ct label : Chars}
    (h : ∀ line ∈ splitlines ct, hasSub (toLowerL line) (toLowerL label) = false) :
    amount_from_label_line ct label = none := by
  unfold amount_from_label_line
  dsimp only
  rw [List.find?_eq_none.mpr (by intro l hl; simp [h l hl])]

theorem find_amount_for_label_none {ct label : Chars} {w : Nat}
    (h : ∀ line ∈ splitlines ct, hasSub (toLowerL line) (toLowerL label) = false) :
    find_amount_for_label ct label w = none := by
  unfold find_amount_for_label
  dsimp only
  rw [firstIdxWhere_eq_none (by intro l hl; exact h l hl)]

theorem searchAfterAux_none {words : List Chars} :
    ∀ {cs : Chars}, (∀ n, labelWordsMatch words (cs.drop n) = none) →
      searchAfterAux words cs = none := by
  intro cs
  induction cs with
  | nil => intro h; rfl
  | cons c rest ih =>
    intro h
    rw [searchAfterAux]
    have h0 := h 0
    rw [List.drop_zero] at h0
    rw [h0]
    exact ih (fun n => h (n + 1))

theorem labelOnLineAfter_false {words : List Chars} {rem : Chars}
    (h : ∀ k, labelWordsMatch words (rem.drop k) = none) :
    labelOnLineAfter words rem = false := by
  unfold labelOnLineAfter
  rw [List.any_eq_false]
  intro k hk
  rw [h k]
  simp

theorem searchBeforeAux_none {words : List Chars} :
    ∀ {cs : Chars}, (∀ n, labelWordsMatch words (cs.drop n) = none) →
      searchBeforeAux words cs = none := by
  intro cs
  induction cs with
  | nil => intro h; rfl
  | cons c rest ih =>
    intro h
    rw [searchBeforeAux]
    rcases hm : numPatMatchAt (c :: rest) with _ | ⟨tok, rem⟩
    · exact ih (fun n => h (n + 1))
    · have hsplit := (numPatMatchAt_split hm).1
      have hrem : rem = (c :: rest).drop tok.length := by
        rw [← hsplit, List.drop_left]
      have hnone : ∀ k, labelWordsMatch words (rem.drop k) = none := by
        intro k
        rw [hrem, List.drop_drop]
        exact h (tok.length + k)
      dsimp only
      rw [labelOnLineAfter_false hnone]
      simp only [Bool.false_eq_true, if_false]
      exact ih (fun n => h (n + 1))

theorem resolveWith_none {label : Chars} {words : List Chars} {ct : Chars}
    (hline : ∀ line ∈ splitlines ct, hasSub (toLowerL line) (toLowerL label) = false)
    (hword : ∀ n, labelWordsMatch words (ct.drop n) = none) :
    resolveWith label words ct = none := by
  unfold resolveWith
  rw [amount_from_label_line_none hline]
  unfold searchAfterRe searchBeforeRe
  rw [searchAfterAux_none hword, searchBeforeAux_none hword]
  exact find_amount_for_label_none hline

theorem withDims_tender (b : Chars) (r : Record) :
    (withDims b r).tendered_date = r.tendered_date ∧
      (withDims b r).subtotal_inr = r.subtotal_inr := by
  unfold withDims
  split <;> exact ⟨rfl, rfl⟩

theorem withCharges_tender (b : Chars) (r : Record) :
    (withCharges b r).tendered_date = r.tendered_date ∧
      (withCharges b r).subtotal_inr = r.subtotal_inr := by
  unfold withCharges
  dsimp only
  split <;> exact ⟨rfl, rfl⟩

theorem withOverride_tender (r : Record) :
    (withOverride r).tendered_date = r.tendered_date ∧
      (withOverride r).subtotal_inr = r.subtotal_inr := by
  unfold withOverride
  split <;> exact ⟨rfl, rfl⟩

theorem mk_record_tender_none {text : Chars} {start stop : Nat} {h : Header}
    (ht : tenderSearch (segSlice text start stop) = none) :
    (mk_record text start stop h).tendered_date = none ∧
      (mk_record text start stop h).subtotal_inr = none := by
  unfold mk_record withTender
  dsimp only
  rw [ht]
  rw [(withOverride_tender _).1, (withCharges_tender _ _).1, (withDims_tender _ _).1]
  rw [(withOverride_tender _).2, (withCharges_tender _ _).2, (withDims_tender _ _).2]
  exact ⟨rfl, rfl⟩

theorem slice_no_marker {block : Chars} {s : Nat}
    (hs : findSubFrom (toLowerL block) (strL "charges") 0 = some s)
    (hm : ∀ t ∈ [strL "signed", strL "tendered date", strL "subtotal inr"],
      findSubFrom (toLowerL block) t (s + 7) = none) :
    slice_charges_section block = block.drop s := by
  unfold slice_charges_section
  dsimp only
  rw [hs]
  have hc : chargeEndCands (toLowerL block) s = [] := by
    unfold chargeEndCands
    rw [List.filterMap_eq_nil_iff]
    intro t ht
    rw [hm t ht]
  dsimp only
  rw [hc]
  rfl

/-! ## The fuel-surcharge override on records -/

theorem mk_record_other (text : Chars) (start stop : Nat) (h : Header) :
    (mk_record text start stop h).other_charges = h.other_charges := by
  unfold mk_record
  rw [withTender_other, withOverride_other, withCharges_other, withDims_other]
  rfl

theorem mk_record_fuel {text : Chars} {start stop : Nat} {h : Header}
    (hne : h.other_charges ≠ []) :
    (mk_record text start stop h).fuel_surcharge = some h.other_charges ∧
      ∀ c, (mk_record text start stop h).charges = some c →
        c.fuel_surcharge = some h.other_charges := by
  unfold mk_record
  dsimp only
  have hother : (withCharges (segSlice text start stop)
      (withDims (segSlice text start stop) (baseRecord h))).other_charges = h.other_charges := by
    rw [withCharges_other, withDims_other]
    rfl
  have hne2 : (withCharges (segSlice text start stop)
      (withDims (segSlice text start stop) (baseRecord h))).other_charges ≠ [] := by
    rw [hother]; exact hne
  rcases withOverride_fuel hne2 with ⟨hf, hc⟩
  constructor
  · rw [withTender_fuel, hf, hother]
  · intro c hcc
    rw [withTender_charges, hc] at hcc
    rcases Option.map_eq_some'.mp hcc with ⟨c0, hc0, hceq⟩
    rw [← hceq]
    dsimp only
    rw [hother]

/-! ## Example documents used by the witnesses -/

/-- A one-shipment document with a header line and a charges table. -/
def docA : Chars :=
  strL "1001 01/03/2024 Priority 2 5.50 kg REF123 17,853.00 210.00 18,063.00\nCharges\n17,853.00 Transportation Charge\n"

/-- The single record the engine recovers from `docA`. -/
def recA : Record := (parse_blocks docA).headD (baseRecord ⟨[], [], [], [], [], [], [], [], []⟩)

/-- A charges section where the label line holds no number, the next line
holds a mid-line amount and the line after it starts with an amount. -/
def ctC3 : Chars := strL "Transportation Charge\nabc 999.00\n50.00"

/-- A charges section whose only amount is a percentage. -/
def ctC4 : Chars := strL "Transportation Charge 15.00%"

/-- The same-line-before example from the specification. -/
def ctC5 : Chars := strL "100.00 200.00 Transportation Charge"

/-- The windowed tie-break example from the specification. -/
def ctC6 : Chars := strL "Fuel Surcharge\n50.00\n-999.00\n75.00"

/-- The charges-section isolation example from the specification. -/
def blockC7 : Chars := strL "Intro\nCharges\nTransportation Charge 100.00\nSigned: X"

/-- An arbitrary header value for instantiating record-level lemmas. -/
def hdr0 : Header :=
  ⟨strL "1", strL "01/01/2020", strL "P", strL "1", strL "1 kg", strL "R",
    strL "1.00", strL "2.00", strL "3.00"⟩

/-! ## The claims -/

/-- Claim C1: for every input document, the engine returns exactly one
record per header match, in document order (match positions are strictly
increasing and the i-th record corresponds to the i-th match), each
record's `shipment` equals the shipment id captured by the corresponding
header match, and a document with zero header matches yields the empty
record sequence. -/
theorem claim_C1 (text : Chars) :
    (parse_blocks text).length = (header_finditer text).length ∧
    (∀ i : Nat, ((parse_blocks text)[i]?).map Record.shipment =
      ((header_finditer text)[i]?).map (fun m => m.2.shipment)) ∧
    (header_finditer text).Pairwise (fun a b => a.1 < b.1) ∧
    (header_finditer text = [] → parse_blocks text = []) := by
  refine ⟨?_, ?_, header_finditer_pairwise text, ?_⟩
  · unfold parse_blocks
    exact blocksAux_length _ _
  · intro i
    unfold parse_blocks
    exact blocksAux_getElem _ _ i
  · intro h
    unfold parse_blocks
    rw [h]
    rfl

set_option maxRecDepth 4000 in
theorem claim_C1_witness :
    parse_blocks (strL "no header here") = [] ∧
    ((parse_blocks docA)[0]?).map Record.shipment = some (strL "1001") := by
  constructor
  · exact (claim_C1 (strL "no header here")).2.2.2 (by decide)
  · rw [(claim_C1 docA).2.1 0]
    decide

/-- Claim C2: for every record produced by the engine, if `other_charges`
is present (a non-empty string), then the record's `fuel_surcharge` — the
top-level field and, when the nested charges mapping exists, its
`fuel_surcharge` entry — equals `other_charges` exactly, overriding any
value recovered from the charges-table text. -/
theorem claim_C2 (text : Chars) (r : Record) (hr : r ∈ parse_blocks text)
    (hoc : r.other_charges ≠ []) :
    r.fuel_surcharge = some r.other_charges ∧
      ∀ c, r.charges = some c → c.fuel_surcharge = some r.other_charges := by
  unfold parse_blocks at hr
  rcases blocksAux_mem hr with ⟨s, hd, stop, hm, rfl⟩
  have hother := mk_record_other text s stop hd
  have hne : hd.other_charges ≠ [] := by rw [← hother]; exact hoc
  rcases @mk_record_fuel text s stop hd hne with ⟨hf, hc⟩
  rw [hother]
  exact ⟨hf, hc⟩

set_option maxRecDepth 4000 in
theorem claim_C2_witness :
    recA.other_charges = strL "210.00" ∧
    recA.fuel_surcharge = some recA.other_charges := by
  refine ⟨by decide, ?_⟩
  exact (claim_C2 docA recA (by decide) (by decide)).1

/-- Claim C10: every record yielded by the engine contains the
`fuel_surcharge` key, always equal to the header-captured
`other_charges`: the header's `other_charges` group is mandatory and
non-empty, so the override fires for every block, even when no charges
table is found. -/
theorem claim_C10 (text : Chars) (r : Record) (hr : r ∈ parse_blocks text) :
    r.other_charges ≠ [] ∧ r.fuel_surcharge = some r.other_charges := by
  unfold parse_blocks at hr
  rcases blocksAux_mem hr with ⟨s, hd, stop, hm, rfl⟩
  have hne : hd.other_charges ≠ [] := header_finditer_other_ne hm
  have hother := mk_record_other text s stop hd
  rcases @mk_record_fuel text s stop hd hne with ⟨hf, _⟩
  rw [hother]
  exact ⟨hne, hf⟩

set_option maxRecDepth 4000 in
theorem claim_C10_witness :
    recA.fuel_surcharge = some recA.other_charges ∧ recA.other_charges ≠ [] := by
  have h := claim_C10 docA recA (by decide)
  exact ⟨h.2, h.1⟩

/-- Claim C3, counterexample: on `ctC3` the first two resolver stages
fail, the windowed-near largest-absolute-value strategy of §4.2 would
return `999.00`, but the resolver returns `50.00` — its third stage is
`_find_amount_for_label`, not the windowed-near fallback the claim
names. -/
theorem claim_C3_counterexample :
    amount_from_label_line ctC3 transportationLabel = none ∧
    searchAfterRe transportationWords ctC3 = none ∧
    searchBeforeRe transportationWords ctC3 = none ∧
    find_amount_near_label ctC3 transportationLabel 3 = some (strL "999.00") ∧
    resolveWith transportationLabel transportationWords ctC3 = some (strL "50.00") ∧
    resolveWith transportationLabel transportationWords ctC3 ≠
      find_amount_near_label ctC3 transportationLabel 3 := by
  refine ⟨by decide, by decide, by decide, by decide, by decide, by decide⟩

/-- Claim C3 (amended): the resolver tries, in this fixed order and
stopping at the first success, (1) same-line label-anchored extraction,
(2) the single-line AFTER/BEFORE pattern rules, and (3) the
`_find_amount_for_label` fallback (nearest token before the label on its
line, else the nearest line within the window starting with a number) —
not the windowed-near largest-absolute-value strategy, which is never
invoked. -/
theorem claim_C3 (label : Chars) (words : List Chars) (ct : Chars) :
    (∀ v, amount_from_label_line ct label = some v →
      resolveWith label words ct = some v) ∧
    (amount_from_label_line ct label = none →
      ∀ v, searchAfterRe words ct = some v → resolveWith label words ct = some v) ∧
    (amount_from_label_line ct label = none → searchAfterRe words ct = none →
      ∀ v, searchBeforeRe words ct = some v → resolveWith label words ct = some v) ∧
    (amount_from_label_line ct label = none → searchAfterRe words ct = none →
      searchBeforeRe words ct = none →
      resolveWith label words ct = find_amount_for_label ct label 3) := by
  refine ⟨?_, ?_, ?_, ?_⟩
  · intro v h1
    unfold resolveWith
    rw [h1]
  · intro h1 v h2
    unfold resolveWith
    rw [h1, h2]
  · intro h1 h2 v h3
    unfold resolveWith
    rw [h1, h2, h3]
  · intro h1 h2 h3
    unfold resolveWith
    rw [h1, h2, h3]

theorem claim_C3_witness :
    resolveWith discountLabel discountWords (strL "Discount 5.00") = some (strL "5.00") :=
  (claim_C3 discountLabel discountWords (strL "Discount 5.00")).1 (strL "5.00") (by decide)

/-- Claim C4, counterexample: the resolver selects `15.00` from `ctC4`
through the single-line pattern stage although the token's only
occurrence (offset 22) is immediately followed by `%` — the exclusion is
not applied in every strategy. -/
theorem claim_C4_counterexample :
    resolveWith transportationLabel transportationWords ctC4 = some (strL "15.00") ∧
    findSubFrom ctC4 (strL "15.00") 0 = some 22 ∧
    findSubFrom ctC4 (strL "15.00") 23 = none ∧
    cleanWindow ctC4 22 (strL "15.00") = false := by
  refine ⟨by decide, by decide, by decide, by decide⟩

/-- Claim C4 (amended): the %/kg 3-character exclusion holds for every
token produced by the candidate scanner `_numbers_in_segment` (used by
the same-line stage and the windowed finders), while the single-line
pattern rules apply no exclusion at all and `_line_starts_with_number`
checks only for `%` in the 3 characters after the token. -/
theorem claim_C4 :
    (∀ seg : Chars, ∀ e ∈ numbers_in_segment_pos seg,
      cleanWindow seg e.1 e.2 = true) ∧
    (∀ line tok rem : Chars, numReMatchAt (line.dropWhile isWsB) = some (tok, rem) →
      line_starts_with_number line = some tok → (rem.take 3).contains '%' = false) := by
  constructor
  · intro seg e he
    exact (List.mem_filter.mp he).2
  · intro line tok rem hm h
    unfold line_starts_with_number at h
    rw [hm] at h
    dsimp only at h
    by_cases hc : (rem.take 3).contains '%'
    · rw [if_pos hc] at h
      exact absurd h (by simp)
    · simpa using hc

theorem claim_C4_witness :
    cleanWindow (strL "Amount 100.00") 7 (strL "100.00") = true :=
  claim_C4.1 (strL "Amount 100.00") (7, strL "100.00") (by decide)

/-- Claim C5: on the first line of the span containing the label, the
same-line strategy returns the last non-excluded token strictly before
the label when one exists (the nearest one: positions in the candidate
list are strictly increasing, so the last has the largest start offset),
and otherwise the first non-excluded token after the label. -/
theorem claim_C5 (ct label line : Chars) (pos : Nat)
    (hline : List.find? (fun l => hasSub (toLowerL l) (toLowerL label))
      (splitlines ct) = some line)
    (hpos : findSubFrom (toLowerL line) (toLowerL label) 0 = some pos) :
    (∀ v, (numbers_in_segment (line.take pos)).getLast? = some v →
      amount_from_label_line ct label = some v) ∧
    ((numbers_in_segment (line.take pos)).getLast? = none →
      amount_from_label_line ct label =
        (numbers_in_segment (line.drop (pos + label.length))).head?) ∧
    (∀ e ∈ numbers_in_segment_pos (line.take pos), ∀ m,
      (numbers_in_segment_pos (line.take pos)).getLast? = some m → e.1 ≤ m.1) := by
  refine ⟨?_, ?_, ?_⟩
  · intro v hv
    unfold amount_from_label_line
    dsimp only
    rw [hline]
    dsimp only
    rw [hpos]
    dsimp only [Option.getD]
    rw [hv]
  · intro hv
    unfold amount_from_label_line
    dsimp only
    rw [hline]
    dsimp only
    rw [hpos]
    dsimp only [Option.getD]
    rw [hv]
  · intro e he m hm
    exact getLast?_pos_max (numbers_in_segment_pos_pairwise _) hm e he

theorem claim_C5_witness :
    amount_from_label_line ctC5 transportationLabel = some (strL "200.00") :=
  (claim_C5 ctC5 transportationLabel ctC5 14 (by decide) (by decide)).1
    (strL "200.00") (by decide)

/-- Claim C6: when the windowed-near strategy resolves a value and
multiple non-excluded candidates exist, the resolved value is a candidate
of largest absolute numeric value among the tokens collected on the
label's line and up to 3 lines after and before it. -/
theorem claim_C6 (ct label : Chars) (w : Nat) (v : Chars)
    (h : find_amount_near_label ct label w = some v) :
    ∃ cands, nearLabelCandidates ct label w = some cands ∧ v ∈ cands ∧
      ∀ c ∈ cands, |decVal c| ≤ |decVal v| := by
  unfold find_amount_near_label at h
  rcases hnc : nearLabelCandidates ct label w with _ | cands <;> rw [hnc] at h
  · exact absurd h (by simp)
  · match cands, h with
    | [], h => exact absurd h (by simp)
    | x :: xs, h =>
      rw [Option.some.injEq] at h
      subst h
      exact ⟨x :: xs, rfl, maxAbsFirst_mem x xs, maxAbsFirst_ge x xs⟩

theorem claim_C6_witness :
    find_amount_near_label ctC6 fuelLabel 3 = some (strL "-999.00") ∧
    |decVal (strL "50.00")| ≤ |decVal (strL "-999.00")| ∧
    |decVal (strL "75.00")| ≤ |decVal (strL "-999.00")| := by
  have hfind : find_amount_near_label ctC6 fuelLabel 3 = some (strL "-999.00") := by decide
  rcases claim_C6 ctC6 fuelLabel 3 (strL "-999.00") hfind with ⟨cands, hc, hm, hge⟩
  have hl : nearLabelCandidates ctC6 fuelLabel 3 =
      some [strL "50.00", strL "-999.00", strL "75.00"] := by decide
  rw [hc] at hl
  have hcands := Option.some.inj hl
  subst hcands
  exact ⟨hfind, hge _ (by decide), hge _ (by decide)⟩

/-- Claim C7: the charges-section isolator returns the whole block when
`charges` does not occur (case-insensitively); otherwise it returns the
substring from the first occurrence of `charges` to the earliest
subsequent occurrence of `signed`, `tendered date` or `subtotal inr` —
each searched from just past the word `charges` — and to the end of the
block when no end marker is found. -/
theorem claim_C7 (block : Chars) :
    (findSubFrom (toLowerL block) (strL "charges") 0 = none →
      slice_charges_section block = block) ∧
    (∀ s e, findSubFrom (toLowerL block) (strL "charges") 0 = some s →
      minList (chargeEndCands (toLowerL block) s) = some e →
      slice_charges_section block = segSlice block s e ∧ s + 7 ≤ e ∧
        e ∈ chargeEndCands (toLowerL block) s ∧
        ∀ x ∈ chargeEndCands (toLowerL block) s, e ≤ x) ∧
    (∀ s, findSubFrom (toLowerL block) (strL "charges") 0 = some s →
      minList (chargeEndCands (toLowerL block) s) = none →
      slice_charges_section block = block.drop s) := by
  refine ⟨?_, ?_, ?_⟩
  · intro h
    unfold slice_charges_section
    dsimp only
    rw [h]
  · intro s e hs he
    rcases minList_spec he with ⟨hmem, hle⟩
    have hse : s + 7 ≤ e := by
      rcases List.mem_filterMap.mp hmem with ⟨t, ht, hfind⟩
      exact findSubFrom_start_le hfind
    refine ⟨?_, hse, hmem, hle⟩
    unfold slice_charges_section
    dsimp only
    rw [hs]
    dsimp only
    rw [he]
    dsimp only
    rw [if_pos (by omega)]
  · intro s hs he
    unfold slice_charges_section
    dsimp only
    rw [hs]
    dsimp only
    rw [he]

theorem claim_C7_witness :
    slice_charges_section blockC7 = strL "Charges\nTransportation Charge 100.00\n" := by
  have h := ((claim_C7 blockC7).2.1 6 43 (by decide) (by decide)).1
  rw [h]
  decide

/-- Claim C8: the recovery engine has no exception-based failure mode —
zero header matches yield the empty record sequence; a label that occurs
nowhere in the charges section (neither as a per-line substring nor as a
`word\s+word` pattern occurrence) makes the resolver return `none`, so
the field is absent; a missing end marker makes the isolated section run
to the end of the block; and a missing tender pattern leaves the tender
fields absent. -/
theorem claim_C8 :
    (∀ text : Chars, header_finditer text = [] → parse_blocks text = []) ∧
    (∀ label : Chars, ∀ words : List Chars, ∀ ct : Chars,
      ((splitlines ct).all (fun line => !(hasSub (toLowerL line) (toLowerL label)))) = true →
      ((List.range (ct.length + 1)).all
        (fun n => (labelWordsMatch words (ct.drop n)).isNone)) = true →
      resolveWith label words ct = none) ∧
    (∀ block : Chars, ∀ s : Nat,
      findSubFrom (toLowerL block) (strL "charges") 0 = some s →
      (∀ t ∈ [strL "signed", strL "tendered date", strL "subtotal inr"],
        findSubFrom (toLowerL block) t (s + 7) = none) →
      slice_charges_section block = block.drop s) ∧
    (∀ text : Chars, ∀ start stop : Nat, ∀ h : Header,
      tenderSearch (segSlice text start stop) = none →
      (mk_record text start stop h).tendered_date = none ∧
        (mk_record text start stop h).subtotal_inr = none) := by
  refine ⟨?_, ?_, ?_, ?_⟩
  · intro text h
    unfold parse_blocks
    rw [h]
    rfl
  · intro label words ct h1 h2
    have hline : ∀ line ∈ splitlines ct, hasSub (toLowerL line) (toLowerL label) = false := by
      intro l hl
      have := List.all_eq_true.mp h1 l hl
      simpa using this
    have hword : ∀ n, labelWordsMatch words (ct.drop n) = none := by
      intro n
      rcases Nat.lt_or_ge n (ct.length + 1) with hn | hn
      · have := List.all_eq_true.mp h2 n (List.mem_range.mpr hn)
        simpa [Option.isNone_iff_eq_none] using this
      · have hd : ct.drop n = [] := List.drop_eq_nil_of_le (by omega)
        have hd0 : ct.drop ct.length = [] := List.drop_eq_nil_of_le (le_refl _)
        have := List.all_eq_true.mp h2 ct.length (List.mem_range.mpr (by omega))
        rw [Option.isNone_iff_eq_none, hd0] at this
        rw [hd]
        exact this
    exact resolveWith_none hline hword
  · intro block s hs hm
    exact slice_no_marker hs hm
  · intro text start stop h ht
    exact mk_record_tender_none ht

theorem claim_C8_witness :
    parse_blocks (strL "plain text, no header") = [] ∧
    resolveWith transportationLabel transportationWords (strL "Discount 5.00") = none ∧
    slice_charges_section (strL "Charges 100.00 end") = strL "Charges 100.00 end" ∧
    (mk_record (strL "x") 0 1 hdr0).tendered_date = none := by
  refine ⟨claim_C8.1 _ (by decide), claim_C8.2.1 _ _ _ (by decide) (by decide), ?_, ?_⟩
  · have h := claim_C8.2.2.1 (strL "Charges 100.00 end") 0 (by decide) (by decide)
    rw [h]
    rfl
  · exact (claim_C8.2.2.2 (strL "x") 0 1 hdr0 (by decide)).1

/-- Claim C9, counterexample: the CLI `--ref` lookup of `main` has no
error branch — on a document with zero matching records it produces the
empty list, an empty success, not the explicit not-found error the claim
requires of the lookup. -/
theorem claim_C9_counterexample :
    main_ref_selection (parse_blocks (strL "")) (strL "REF123") = ApiResult.many [] ∧
    ApiResult.many [] ≠ ApiResult.err (strL "REF123") := by
  exact ⟨by decide, by decide⟩

/-- Claim C9 (amended): the HTTP by-reference lookup returns an explicit
not-found error when zero records match, the single matching record when
exactly one matches, and the full list of matching records when several
share the reference; the CLI `--ref` lookup behaves the same for one or
many matches but prints the empty list — not an error — when nothing
matches.  Every returned record indeed carries the requested
reference. -/
theorem claim_C9 (blocks : List Record) (reference : Chars) :
    (blocks.filter (fun b => b.reference == reference) = [] →
      fedex_by_reference blocks reference = .err reference ∧
      main_ref_selection blocks reference = .many []) ∧
    (∀ r, blocks.filter (fun b => b.reference == reference) = [r] →
      fedex_by_reference blocks reference = .one r ∧
      main_ref_selection blocks reference = .one r) ∧
    (∀ r r2 rest, blocks.filter (fun b => b.reference == reference) = r :: r2 :: rest →
      fedex_by_reference blocks reference = .many (r :: r2 :: rest) ∧
      main_ref_selection blocks reference = .many (r :: r2 :: rest)) ∧
    (∀ b ∈ blocks.filter (fun b => b.reference == reference), b.reference = reference) := by
  refine ⟨?_, ?_, ?_, ?_⟩
  · intro h
    unfold fedex_by_reference main_ref_selection
    rw [h]
    exact ⟨rfl, rfl⟩
  · intro r h
    unfold fedex_by_reference main_ref_selection
    rw [h]
    exact ⟨rfl, rfl⟩
  · intro r r2 rest h
    unfold fedex_by_reference main_ref_selection
    rw [h]
    exact ⟨rfl, rfl⟩
  · intro b hb
    have := (List.mem_filter.mp hb).2
    simpa using this

set_option maxRecDepth 4000 in
theorem claim_C9_witness :
    fedex_by_reference [] (strL "X") = ApiResult.err (strL "X") ∧
    fedex_by_reference (parse_blocks docA) (strL "REF123") = ApiResult.one recA ∧
    main_ref_selection (parse_blocks docA) (strL "REF123") = ApiResult.one recA := by
  refine ⟨((claim_C9 [] (strL "X")).1 (by decide)).1, ?_⟩
  have h := (claim_C9 (parse_blocks docA) (strL "REF123")).2.1 recA (by decide)
  exact h

end Fedex
